import Mathlib

/-
Verification development for the dbc2parquet repository.

Shallow embedding of the core of dbc2parquet: the DBF header and field
catalog parsing in src/dbf_reader.cpp and the per-cell typed extraction
pipeline in the parquet writer translation unit (create_schema,
trim_in_place, create_arrow_batch).

Modelling conventions:
 - bytes are natural numbers (values 0..255 in any real buffer);
 - buffers and field byte ranges are lists of bytes;
 - C integer types are Int or Nat with explicit range checks where the
   width matters (std::from_chars range failure);
 - fallible C functions returning 0 / -1 or bool become Option / Bool;
 - reading one byte of a buffer is List.getD with default 0 (an
   out-of-range read in C is undefined behaviour; the default only
   matters for inputs on which the C code already reads out of bounds).
-/

set_option maxRecDepth 10000

namespace Dbc2Parquet

/-- C locale isspace on a byte: space (32) or the range horizontal tab
through carriage return (9..13, that is tab, newline, vertical tab, form
feed, carriage return). This is the predicate used by trim_in_place in the
parquet writer. -/
def isspace_c (b : ℕ) : Bool := b == 32 || (decide (9 ≤ b) && decide (b ≤ 13))

/-- ASCII digit test, as used by the scanf and from_chars number grammars. -/
def isdigit (b : ℕ) : Bool := decide (48 ≤ b) && decide (b ≤ 57)

/-- Value of a string of ASCII digit bytes read left to right in base 10. -/
def digitsToNat (ds : List ℕ) : ℕ := ds.foldl (fun a b => a * 10 + (b - 48)) 0

/-- Value-level model of trim_in_place from the parquet writer: drop C
isspace bytes from the front, then from the back, of the field byte range.
The C function returns an adjusted start pointer and length; this model
returns the byte list of that range. The C trailing loop guard end > start
cannot drop the first remaining byte, but after the leading loop that byte
is never a space, so plain dropWhile on the reversed remainder agrees with
it. -/
def trim_in_place (l : List ℕ) : List ℕ :=
  ((l.dropWhile isspace_c).reverse.dropWhile isspace_c).reverse

/-- Refinement comparison definition. Modelled from the spec wording: trim,
from both ends, exactly the characters of the list cs (the spec names
space, tab, newline and carriage return). -/
def trim_spec_chars (cs : List ℕ) (l : List ℕ) : List ℕ :=
  ((l.dropWhile (fun b => cs.contains b)).reverse.dropWhile
      (fun b => cs.contains b)).reverse

/-- Model of std::from_chars for a signed integer type, pattern part:
an optional minus sign (a plus sign is not recognised by from_chars)
followed by a maximal run of decimal digits; the parsed value (unbounded)
and the unconsumed rest are returned, or none when no digit is matched. -/
def intScan (s : List ℕ) : Option (Int × List ℕ) :=
  match s with
  | [] => none
  | b :: rest =>
    if b = 45 then
      let ds := rest.takeWhile isdigit
      if ds.isEmpty then none
      else some (-(digitsToNat ds : Int), rest.drop ds.length)
    else
      let ds := (b :: rest).takeWhile isdigit
      if ds.isEmpty then none
      else some ((digitsToNat ds : Int), (b :: rest).drop ds.length)

/-- Model of std::from_chars for a signed integer type with bounds lo..hi:
the matched value is returned only when it is representable, mirroring the
errc::result_out_of_range failure of from_chars, which the extraction code
turns into a null cell. -/
def from_chars_int (lo hi : Int) (s : List ℕ) : Option Int :=
  match intScan s with
  | none => none
  | some (v, _) => if lo ≤ v ∧ v ≤ hi then some v else none

/-- Model of one scanf %d conversion with maximum field width w: skip C
isspace bytes, accept an optional sign (counted against the width), then a
run of digits limited by the width; fail when no digit is consumed. -/
def scan_d (w : ℕ) (s : List ℕ) : Option (Int × List ℕ) :=
  match s.dropWhile isspace_c with
  | [] => none
  | b :: rest =>
    if b = 45 ∨ b = 43 then
      let ds := (rest.take (w - 1)).takeWhile isdigit
      if ds.isEmpty then none
      else some ((if b = 45 then -(digitsToNat ds : Int) else (digitsToNat ds : Int)),
                 rest.drop ds.length)
    else
      let ds := ((b :: rest).take w).takeWhile isdigit
      if ds.isEmpty then none
      else some ((digitsToNat ds : Int), (b :: rest).drop ds.length)

/-- Model of sscanf(s, "%4d%2d%2d", &year, &month, &day) from the DATE32
branch of create_arrow_batch: three %d conversions with widths 4, 2, 2;
the result is some (y, m, d) exactly when all three conversions succeed
(return value 3), regardless of any unconsumed trailing bytes. -/
def scan_date (s : List ℕ) : Option (Int × Int × Int) :=
  match scan_d 4 s with
  | none => none
  | some (y, s1) =>
    match scan_d 2 s1 with
    | none => none
    | some (m, s2) =>
      match scan_d 2 s2 with
      | none => none
      | some (d, _) => some (y, m, d)

/-- Days from 1970-01-01 of the civil date (y, m, d), by the standard era
based civil calendar algorithm, over Int with floor division. The formula
is linear in d, so a day value outside the month rolls into adjacent
months exactly the way mktime normalises tm_mday. Month m is expected in
1..12 here; month normalisation is done by mktime_days. -/
def days_from_civil (y m d : Int) : Int :=
  let y2 := if m ≤ 2 then y - 1 else y
  let era := y2.fdiv 400
  let yoe := y2 - era * 400
  let mp := (m + 9).emod 12
  let doy := (153 * mp + 2).fdiv 5 + d - 1
  let doe := yoe * 365 + yoe.fdiv 4 - yoe.fdiv 100 + doy
  era * 146097 + doe - 719468

/-- Model of the DATE32 conversion tail of create_arrow_batch: mktime on a
struct tm with tm_year = y - 1900, tm_mon = m - 1, tm_mday = d and all
clock fields zero, divided by 86400 seconds. mktime first normalises the
month into 1..12 (rolling the year) and then treats the day as a free
offset from the first of that month; the epoch division is exact because
the clock fields are zero. Local time is modelled as UTC (a nonzero UTC
offset shifts every produced day number uniformly by at most one; it does
not affect nullness or the normalisation behaviour). -/
def mktime_days (y m d : Int) : Int :=
  let tot := y * 12 + (m - 1)
  days_from_civil (tot.fdiv 12) (tot.emod 12 + 1) d

/-- Arrow scalar type of a column, as declared by create_schema and
dispatched on (through DataType::id) by create_arrow_batch. -/
inductive FieldClass
  | utf8T
  | int32T
  | int64T
  | doubleT
  | boolT
  | date32T
  deriving DecidableEq

/-- Model of create_schema for one field: switch on the DBF type tag byte
(C = 67, N = 78, D = 68, L = 76, anything else text), with the Numeric
split on field_decimals > 0 and field_length <= 9. -/
def schema_field_type (ftype flen fdec : ℕ) : FieldClass :=
  if ftype = 67 then FieldClass.utf8T
  else if ftype = 78 then
    (if 0 < fdec then FieldClass.doubleT
     else if flen ≤ 9 then FieldClass.int32T
     else FieldClass.int64T)
  else if ftype = 68 then FieldClass.date32T
  else if ftype = 76 then FieldClass.boolT
  else FieldClass.utf8T

/-- Exact-value model of fast_float from_chars (an external library the
writer uses for the DOUBLE branch): optional minus sign, decimal digits
with an optional fractional part (at least one digit overall), and an
optional decimal exponent. The value returned is the exact decimal
rational; rounding to the nearest binary double and the textual infinity
and NaN forms are abstracted away (no claim depends on the numeric value
of a double cell, only on its nullness, which the empty-after-trim check
decides before this parser runs). -/
def fast_float_scan (s : List ℕ) : Option ℚ :=
  let np : Bool × List ℕ :=
    match s with
    | 45 :: rest => (true, rest)
    | _ => (false, s)
  let ip := np.2.takeWhile isdigit
  let s2 := np.2.drop ip.length
  let fp : List ℕ :=
    match s2 with
    | 46 :: rest => rest.takeWhile isdigit
    | _ => []
  let s3 : List ℕ :=
    match s2 with
    | 46 :: rest => rest.drop (rest.takeWhile isdigit).length
    | _ => s2
  if ip.isEmpty && fp.isEmpty then none
  else
    let e : Int :=
      match s3 with
      | 101 :: rest => expPart rest
      | 69 :: rest => expPart rest
      | _ => 0
    let mant : ℚ := (digitsToNat ip : ℚ) + (digitsToNat fp : ℚ) / ((10 : ℚ) ^ fp.length)
    let v : ℚ := mant * (10 : ℚ) ^ e
    some (if np.1 then -v else v)
where
  /-- Exponent digits with optional sign; an exponent marker not followed
  by a digit contributes nothing (from_chars backs up to the longest valid
  pattern). -/
  expPart (r : List ℕ) : Int :=
    match r with
    | 45 :: rr =>
      let ds := rr.takeWhile isdigit
      if ds.isEmpty then 0 else -(digitsToNat ds : Int)
    | 43 :: rr =>
      let ds := rr.takeWhile isdigit
      if ds.isEmpty then 0 else (digitsToNat ds : Int)
    | _ =>
      let ds := r.takeWhile isdigit
      if ds.isEmpty then 0 else (digitsToNat ds : Int)

/-- Typed value of one cell of a produced record batch. -/
inductive Cell
  | null
  | text (bs : List ℕ)
  | i32 (v : Int)
  | i64 (v : Int)
  | f64 (v : ℚ)
  | boolv (b : Bool)
  | date (d : Int)
  deriving DecidableEq

/-- Model of the per-cell body of the column loop of create_arrow_batch,
operating on the byte range of one field of one record. The code writes a
NUL terminator one past the field, trims in place, appends null when the
trimmed start byte is NUL (empty after trim, or a field whose first
non-space byte is NUL), and otherwise dispatches on the schema type. conv
is the external legacy-to-UTF-8 converter (iconv or the Windows API),
applied only to non-ASCII text. For from_chars the byte range (pointer
pair) is the whole trimmed range; for sscanf the input is the C string at
the trimmed start, which ends at the first NUL byte. -/
def extract_cell (conv : List ℕ → List ℕ) (cls : FieldClass) (field : List ℕ) : Cell :=
  let t := trim_in_place field
  if t.headD 0 = 0 then Cell.null
  else
    match cls with
    | FieldClass.utf8T =>
      Cell.text (if t.all (fun b => decide (b ≤ 127)) then t else conv t)
    | FieldClass.int32T =>
      match from_chars_int (-2147483648) 2147483647 t with
      | some v => Cell.i32 v
      | none => Cell.null
    | FieldClass.int64T =>
      match from_chars_int (-9223372036854775808) 9223372036854775807 t with
      | some v => Cell.i64 v
      | none => Cell.null
    | FieldClass.doubleT =>
      match fast_float_scan t with
      | some q => Cell.f64 q
      | none => Cell.null
    | FieldClass.boolT =>
      Cell.boolv (t.length == 1 &&
        (t.headD 0 == 84 || t.headD 0 == 116 || t.headD 0 == 49 ||
         t.headD 0 == 89 || t.headD 0 == 121))
    | FieldClass.date32T =>
      match scan_date (t.takeWhile (fun b => b != 0)) with
      | some (y, m, d) => Cell.date (mktime_days y m d)
      | none => Cell.null

/-- Byte range of one field inside the decompressed buffer: len bytes
starting at absolute offset off (off = record start + field_offset). -/
def field_slice (buf : List ℕ) (off len : ℕ) : List ℕ :=
  (buf.drop off).take len

/-- Absolute buffer index at which trim_in_place writes its NUL terminator
(the C expression end + 1): the field start plus the number of leading
bytes trimmed plus the trimmed length. When the field has trailing
whitespace this index lies inside the field; otherwise it is the byte one
past the field. -/
def trim_write_pos (off : ℕ) (field : List ℕ) : ℕ :=
  off + (field.takeWhile isspace_c).length + (trim_in_place field).length

/-- Net effect on the decompressed buffer of extracting one cell whose
field occupies [off, off + len): create_arrow_batch saves the byte one
past the field, overwrites it with NUL, calls trim_in_place (which writes
one NUL at trim_write_pos unless len = 0), and finally restores only the
saved byte one past the field. -/
def process_cell_buf (buf : List ℕ) (off len : ℕ) : List ℕ :=
  (if len = 0 then buf.set (off + len) 0
   else (buf.set (off + len) 0).set (trim_write_pos off (field_slice buf off len)) 0).set
    (off + len) (buf.getD (off + len) 0)

/-- Size in bytes of the on-disk DB_HEADER structure. -/
def DB_HEADER_size : ℕ := 32

/-- Size in bytes of one on-disk DB_FIELD descriptor. -/
def DB_FIELD_size : ℕ := 32

/-- Model of dbf_NumCols from dbf_reader.cpp: (header_length - 32 - 1) / 32
when the header length exceeds the fixed header size, else 0. -/
def dbf_NumCols (header_length : ℕ) : ℕ :=
  if DB_HEADER_size < header_length
  then (header_length - DB_HEADER_size - 1) / DB_FIELD_size
  else 0

/-- In-memory field descriptor, with the fields of DB_FIELD that the
program reads: name bytes 0..10, type byte 11, length byte 16, decimal
count byte 17, and the derived field_offset (not an on-disk value; the
on-disk bytes the struct member overlays are overwritten by
dbf_ReadFieldInfo before any use). -/
structure DB_FIELD where
  field_name : List ℕ
  field_type : ℕ
  field_length : ℕ
  field_decimals : ℕ
  field_offset : ℕ
  deriving DecidableEq

/-- Descriptor number i as memcpy reads it from the decompressed buffer:
a 32-byte record at offset 32 + 32 * i. Out-of-range buffer bytes read as
the getD default (in C this memcpy is an out-of-bounds read). -/
def read_field_descriptor (buf : List ℕ) (i : ℕ) : DB_FIELD :=
  let base := DB_HEADER_size + DB_FIELD_size * i
  { field_name := ((buf.drop base).take 11)
    field_type := buf.getD (base + 11) 0
    field_length := buf.getD (base + 16) 0
    field_decimals := buf.getD (base + 17) 0
    field_offset := 0 }

/-- Offset assignment loop of dbf_ReadFieldInfo: a running offset starts at
1 (offset 0 of each record is the deletion flag byte); each field receives
the current offset, which then advances by that field length. -/
def assign_offsets : ℕ → List DB_FIELD → List DB_FIELD
  | _, [] => []
  | off, f :: fs => { f with field_offset := off } :: assign_offsets (off + f.field_length) fs

/-- Model of dbf_ReadFieldInfo from dbf_reader.cpp: fail when the buffer is
shorter than the 32-byte header or when dbf_NumCols is zero; otherwise
memcpy the descriptor array from offset 32 and assign cumulative offsets.
The C code performs no check that the buffer actually contains the
descriptor array. -/
def dbf_ReadFieldInfo (buf : List ℕ) (header_length : ℕ) : Option (List DB_FIELD) :=
  if buf.length < DB_HEADER_size then none
  else if dbf_NumCols header_length = 0 then none
  else some (assign_offsets 1
    ((List.range (dbf_NumCols header_length)).map (read_field_descriptor buf)))

/-- Encoding table of dbf_ReadHeaderInfo: switch on the language driver
byte of the header. -/
def encoding_of_language (b : ℕ) : String :=
  if b = 1 then "CP437"
  else if b = 2 then "CP850"
  else if b = 3 then "CP852"
  else if b = 101 then "CP1252"
  else "CP850"

/-- Model of dbf_ReadHeaderSize from dbf_reader.cpp: read the two bytes at
file offsets 8 and 9 as a little-endian 16-bit value; a seek or read
failure (the file has fewer than 10 bytes) returns the sentinel 1. -/
def dbf_ReadHeaderSize (file : List ℕ) : ℕ :=
  if file.length < 10 then 1
  else file.getD 8 0 + file.getD 9 0 * 256

/-- Model of the front gate of dbc_load_dbf: the load returns false
immediately when dbf_ReadHeaderSize returns 1; rest stands for the outcome
of everything after the gate (the header read-back, decompression, header
parse and field catalog build), which is unreachable when the gate
fires. -/
def dbc_load_dbf (file : List ℕ) (rest : Bool) : Bool :=
  if dbf_ReadHeaderSize file = 1 then false else rest

/-- Helper: dropping a matched head part never lengthens a list. -/
theorem length_dropWhile_le_aux (p : ℕ → Bool) (x : List ℕ) :
    (x.dropWhile p).length ≤ x.length := by
  conv_rhs => rw [← List.takeWhile_append_dropWhile (p := p) (l := x)]
  rw [List.length_append]
  omega

/-- Helper: a list splits as its leading whitespace, its trimmed middle and
its trailing whitespace. -/
theorem trim_decomp (l : List ℕ) :
    l = l.takeWhile isspace_c ++
      (trim_in_place l ++ ((l.dropWhile isspace_c).reverse.takeWhile isspace_c).reverse) := by
  conv_lhs => rw [← List.takeWhile_append_dropWhile (p := isspace_c) (l := l)]
  congr 1
  conv_lhs => rw [← List.reverse_reverse (List.dropWhile isspace_c l)]
  conv_lhs =>
    rw [← List.takeWhile_append_dropWhile (p := isspace_c)
      (l := (List.dropWhile isspace_c l).reverse)]
  rw [List.reverse_append]
  rfl

/-- Helper: getD of a set at the written index. -/
theorem getD_set_eq (l : List ℕ) (n a : ℕ) (h : n < l.length) :
    (l.set n a).getD n 0 = a := by
  rw [List.getD_eq_getElem?_getD]
  simp [List.getElem?_set, h]

/-- Helper: getD of a set at a different index. -/
theorem getD_set_ne (l : List ℕ) (n j a : ℕ) (h : n ≠ j) :
    (l.set n a).getD j 0 = l.getD j 0 := by
  rw [List.getD_eq_getElem?_getD, List.getD_eq_getElem?_getD, List.getElem?_set_ne h]

/-- Helper: a byte of the field slice is the corresponding buffer byte. -/
theorem field_slice_getD (buf : List ℕ) (off len j : ℕ) (h : j < len) :
    (field_slice buf off len).getD j 0 = buf.getD (off + j) 0 := by
  rw [List.getD_eq_getElem?_getD, List.getD_eq_getElem?_getD]
  unfold field_slice
  rw [List.getElem?_take, if_pos h, List.getElem?_drop]

/-- Helper: when the leading-plus-trimmed length falls short of the whole
field, the byte right after the trimmed content is whitespace (it is the
first byte of the trailing whitespace run). -/
theorem trim_gap_isspace (l : List ℕ)
    (h : (l.takeWhile isspace_c).length + (trim_in_place l).length < l.length) :
    isspace_c (l.getD ((l.takeWhile isspace_c).length + (trim_in_place l).length) 0) = true := by
  set pre := l.takeWhile isspace_c with hpre
  set t := trim_in_place l with ht
  set suf := ((l.dropWhile isspace_c).reverse.takeWhile isspace_c).reverse with hsuf
  have hd : l = pre ++ (t ++ suf) := trim_decomp l
  have hlen : l.length = pre.length + (t.length + suf.length) := by
    conv_lhs => rw [hd]
    simp
  have hsuf_ne : suf ≠ [] := by
    intro hn
    rw [hn] at hlen
    simp at hlen
    omega
  obtain ⟨a, as, ha⟩ : ∃ a as, suf = a :: as := by
    cases hc : suf with
    | nil => exact absurd hc hsuf_ne
    | cons a as => exact ⟨a, as, rfl⟩
  have hspace : isspace_c a = true := by
    have hmem : a ∈ (l.dropWhile isspace_c).reverse.takeWhile isspace_c := by
      have : a ∈ suf := by
        rw [ha]
        exact List.mem_cons_self a as
      rw [hsuf] at this
      exact List.mem_reverse.mp this
    exact List.mem_takeWhile_imp hmem
  have hval : l.getD (pre.length + t.length) 0 = a := by
    conv_lhs => rw [hd]
    rw [List.getD_eq_getElem?_getD]
    rw [List.getElem?_append_right (by omega : pre.length ≤ pre.length + t.length)]
    have h2 : pre.length + t.length - pre.length = t.length := by omega
    rw [h2]
    rw [List.getElem?_append_right (le_refl t.length)]
    simp [ha]
  rw [hval]
  exact hspace

/-- Claim C8 (confirmed): header parsing resolves the legacy encoding
identifier from the language byte by the fixed total map 0x01 to code page
437, 0x02 to 850, 0x03 to 852, 0x65 to 1252, and every other byte value
(for example 0x09) resolves to the default 850. -/
theorem language_byte_map :
    encoding_of_language 1 = "CP437" ∧ encoding_of_language 2 = "CP850" ∧
    encoding_of_language 3 = "CP852" ∧ encoding_of_language 101 = "CP1252" ∧
    encoding_of_language 9 = "CP850" ∧
    ∀ b : ℕ, b ≠ 1 → b ≠ 2 → b ≠ 3 → b ≠ 101 → encoding_of_language b = "CP850" := by
  refine ⟨rfl, rfl, rfl, rfl, rfl, ?_⟩
  intro b h1 h2 h3 h4
  unfold encoding_of_language
  rw [if_neg h1, if_neg h2, if_neg h3, if_neg h4]

/-- Witness for C8 at the concrete unlisted byte 200. -/
theorem language_byte_map_witness : encoding_of_language 200 = "CP850" :=
  language_byte_map.2.2.2.2.2 200 (by decide) (by decide) (by decide) (by decide)

/-- Claim C10 (confirmed): dbc_load_dbf returns false for every input file
whose bytes 8 and 9 encode the little-endian value 1, whatever the rest of
the pipeline would have produced, because 1 is also the sentinel value that
dbf_ReadHeaderSize returns for a seek or read failure. -/
theorem header_size_one_rejected :
    ∀ (file : List ℕ) (rest : Bool), 10 ≤ file.length →
      file.getD 8 0 = 1 → file.getD 9 0 = 0 → dbc_load_dbf file rest = false := by
  intro file rest hlen h8 h9
  have hnl : ¬ file.length < 10 := by omega
  unfold dbc_load_dbf dbf_ReadHeaderSize
  rw [if_neg hnl, h8, h9]
  norm_num

/-- Witness for C10 at a concrete ten-byte file declaring header length 1. -/
theorem header_size_one_rejected_witness :
    dbc_load_dbf [0, 0, 0, 0, 0, 0, 0, 0, 1, 0] true = false :=
  header_size_one_rejected [0, 0, 0, 0, 0, 0, 0, 0, 1, 0] true (by decide) (by decide) (by decide)

/-- Claim C6 (confirmed): for every Numeric field the schema-declared
scalar type is double when the decimal count is positive, a 32-bit signed
integer when the decimal count is 0 and the declared length is at most 9,
and a 64-bit signed integer when the decimal count is 0 and the declared
length is at least 10; in particular length 9 maps to int32 and length 10
maps to int64. -/
theorem numeric_schema_mapping :
    (∀ flen fdec : ℕ, 0 < fdec → schema_field_type 78 flen fdec = FieldClass.doubleT) ∧
    (∀ flen : ℕ, flen ≤ 9 → schema_field_type 78 flen 0 = FieldClass.int32T) ∧
    (∀ flen : ℕ, 10 ≤ flen → schema_field_type 78 flen 0 = FieldClass.int64T) ∧
    schema_field_type 78 9 0 = FieldClass.int32T ∧
    schema_field_type 78 10 0 = FieldClass.int64T := by
  refine ⟨?_, ?_, ?_, by decide, by decide⟩
  · intro flen fdec h
    simp [schema_field_type, h]
  · intro flen h
    simp [schema_field_type, h]
  · intro flen h
    have h9 : ¬ flen ≤ 9 := by omega
    simp [schema_field_type, h9]

/-- Witness for C6 at concrete lengths and decimal counts. -/
theorem numeric_schema_mapping_witness :
    schema_field_type 78 7 2 = FieldClass.doubleT ∧
    schema_field_type 78 5 0 = FieldClass.int32T ∧
    schema_field_type 78 12 0 = FieldClass.int64T :=
  ⟨numeric_schema_mapping.1 7 2 (by decide),
   numeric_schema_mapping.2.1 5 (by decide),
   numeric_schema_mapping.2.2.1 12 (by decide)⟩

/-- Claim C4 counterexample: batch extraction trims the vertical tab byte
11, a byte outside the claimed set of space, tab, newline and carriage
return; trimming by the claimed four-character set leaves it in place. -/
theorem trim_vertical_tab :
    trim_in_place [65, 11] = [65] ∧
    trim_spec_chars [32, 9, 10, 13] [65, 11] = [65, 11] := by
  exact ⟨by decide, by decide⟩

/-- Claim C4 (amended): extraction trims exactly the six C locale isspace
characters - space, tab, newline, vertical tab, form feed and carriage
return - and no other byte values, from both ends of the field byte
range: trim_in_place coincides with trimming by that six-character set. -/
theorem trim_matches_c_isspace :
    ∀ l : List ℕ, trim_in_place l = trim_spec_chars [32, 9, 10, 11, 12, 13] l := by
  have hp : isspace_c = fun b => (([32, 9, 10, 11, 12, 13] : List ℕ).contains b) := by
    funext b
    have h1 : isspace_c b = true ↔ (([32, 9, 10, 11, 12, 13] : List ℕ).contains b) = true := by
      simp [isspace_c, List.contains]
      omega
    cases ha : isspace_c b
    · cases hb : (([32, 9, 10, 11, 12, 13] : List ℕ).contains b)
      · rfl
      · rw [ha, hb] at h1
        simp at h1
    · cases hb : (([32, 9, 10, 11, 12, 13] : List ℕ).contains b)
      · rw [ha, hb] at h1
        simp at h1
      · rfl
  intro l
  unfold trim_in_place trim_spec_chars
  rw [hp]

/-- Claim C7 (confirmed): for every declared field type and every text
converter, a field value consisting entirely of whitespace bytes (empty
after trimming) extracts to the null cell - never a typed value and never
an error. -/
theorem all_whitespace_yields_null :
    ∀ (conv : List ℕ → List ℕ) (cls : FieldClass) (field : List ℕ),
      (∀ b ∈ field, isspace_c b = true) → extract_cell conv cls field = Cell.null := by
  intro conv cls field h
  have h1 : field.dropWhile isspace_c = [] := List.dropWhile_eq_nil_iff.mpr h
  simp [extract_cell, trim_in_place, h1]

/-- Witness for C7 at a concrete all-whitespace Logical field. -/
theorem all_whitespace_yields_null_witness :
    extract_cell id FieldClass.boolT [32, 9, 13] = Cell.null :=
  all_whitespace_yields_null id FieldClass.boolT [32, 9, 13] (by decide)

/-- Claim C3 (code bug): at the failing input of a 32-byte decompressed
buffer (header only, no room for any descriptor) with declared header
length 65 (computed field count 1), dbf_ReadFieldInfo succeeds instead of
failing: the code checks only that the buffer holds the 32-byte header and
that the count is nonzero, and never checks that the buffer contains the
full field-descriptor array it copies out. -/
theorem field_info_no_truncation_check :
    dbf_ReadFieldInfo (List.replicate 32 0) 65 ≠ none ∧
    (List.replicate 32 0).length < DB_HEADER_size + DB_FIELD_size * dbf_NumCols 65 := by
  exact ⟨by decide, by decide⟩

/-- Helper: the offset assignment loop keeps the catalog length. -/
theorem assign_offsets_length (off : ℕ) (fs : List DB_FIELD) :
    (assign_offsets off fs).length = fs.length := by
  induction fs generalizing off with
  | nil => rfl
  | cons f fs ih => simp [assign_offsets, ih]

/-- Helper: the offset stored for field i is the starting offset plus the
sum of the lengths of the fields before it. -/
theorem assign_offsets_getD (fs : List DB_FIELD) :
    ∀ (off i : ℕ), i < fs.length →
      ((assign_offsets off fs).map DB_FIELD.field_offset).getD i 0 =
        off + ((fs.map DB_FIELD.field_length).take i).sum := by
  induction fs with
  | nil =>
    intro off i h
    simp at h
  | cons f fs ih =>
    intro off i h
    cases i with
    | zero => simp [assign_offsets]
    | succ n =>
      have hn : n < fs.length := by
        simp at h
        omega
      simp only [assign_offsets, List.map_cons, List.getD_cons_succ, List.take_succ_cons,
        List.sum_cons]
      rw [ih (off + f.field_length) n hn]
      omega

/-- Claim C5 (confirmed): for every field catalog built by the offset
assignment loop of dbf_ReadFieldInfo, the derived byte offsets satisfy
offset 0 = 1 (offset 0 within a record being the deletion flag byte) and
offset (i+1) = offset i + length i for every i. -/
theorem field_offsets_cumulative :
    ∀ fs : List DB_FIELD,
      (fs ≠ [] → ((assign_offsets 1 fs).map DB_FIELD.field_offset).getD 0 0 = 1) ∧
      ∀ i : ℕ, i + 1 < fs.length →
        ((assign_offsets 1 fs).map DB_FIELD.field_offset).getD (i + 1) 0 =
          ((assign_offsets 1 fs).map DB_FIELD.field_offset).getD i 0 +
            (fs.map DB_FIELD.field_length).getD i 0 := by
  intro fs
  constructor
  · intro hne
    have h0 : 0 < fs.length := List.length_pos.mpr hne
    rw [assign_offsets_getD fs 1 0 h0]
    simp
  · intro i h
    rw [assign_offsets_getD fs 1 (i + 1) h, assign_offsets_getD fs 1 i (by omega)]
    have hi : i < (fs.map DB_FIELD.field_length).length := by
      simp
      omega
    rw [List.sum_take_succ _ i hi]
    rw [List.getD_eq_getElem?_getD, List.getElem?_eq_getElem hi]
    simp only [Option.getD_some, List.get_eq_getElem]
    omega

/-- Witness for C5 at a concrete two-field catalog with lengths 5 and 10. -/
theorem field_offsets_cumulative_witness :
    ((assign_offsets 1 [⟨[], 67, 5, 0, 0⟩, ⟨[], 67, 10, 0, 0⟩]).map DB_FIELD.field_offset).getD 0 0 = 1 ∧
    ((assign_offsets 1 [⟨[], 67, 5, 0, 0⟩, ⟨[], 67, 10, 0, 0⟩]).map DB_FIELD.field_offset).getD 1 0 =
      ((assign_offsets 1 [⟨[], 67, 5, 0, 0⟩, ⟨[], 67, 10, 0, 0⟩]).map DB_FIELD.field_offset).getD 0 0 +
        (([⟨[], 67, 5, 0, 0⟩, ⟨[], 67, 10, 0, 0⟩] : List DB_FIELD).map DB_FIELD.field_length).getD 0 0 :=
  ⟨(field_offsets_cumulative [⟨[], 67, 5, 0, 0⟩, ⟨[], 67, 10, 0, 0⟩]).1 (by decide),
   (field_offsets_cumulative [⟨[], 67, 5, 0, 0⟩, ⟨[], 67, 10, 0, 0⟩]).2 0 (by decide)⟩

/-- Helper: from_chars cannot match anything when the trimmed range starts
with a NUL byte (the case the extraction code already maps to null). -/
theorem intScan_head_zero (t : List ℕ) (h : t.headD 0 = 0) : intScan t = none := by
  cases t with
  | nil => rfl
  | cons b rest =>
    simp only [List.headD_cons] at h
    subst h
    simp [intScan, List.takeWhile_cons, isdigit]

/-- Claim C9 counterexample: an int64 Numeric cell of twenty 9 digits has a
parsable numeric prefix (the whole digit run, of value 10 to the 20th minus
one) yet extraction yields null, because from_chars reports
result_out_of_range for a matched value outside the 64-bit signed range. -/
theorem int64_overflow_yields_null :
    extract_cell id FieldClass.int64T (List.replicate 20 57) = Cell.null ∧
    intScan (List.replicate 20 57) = some (99999999999999999999, []) := by
  exact ⟨by decide, by decide⟩

/-- Claim C9 (amended): for every Numeric cell whose trimmed bytes start
with a parsable numeric prefix followed by arbitrary trailing bytes,
integer extraction emits the parsed prefix value whenever that value fits
the declared integer width; the cell is null exactly when no numeric
prefix can be parsed at all or the parsed prefix value overflows the
declared width. -/
theorem numeric_prefix_value_extraction :
    (∀ (conv : List ℕ → List ℕ) (field : List ℕ) (v : Int) (rest : List ℕ),
      intScan (trim_in_place field) = some (v, rest) →
      (-2147483648 ≤ v → v ≤ 2147483647 →
        extract_cell conv FieldClass.int32T field = Cell.i32 v) ∧
      (-9223372036854775808 ≤ v → v ≤ 9223372036854775807 →
        extract_cell conv FieldClass.int64T field = Cell.i64 v)) ∧
    (∀ (conv : List ℕ → List ℕ) (field : List ℕ),
      extract_cell conv FieldClass.int64T field = Cell.null ↔
        (intScan (trim_in_place field) = none ∨
          ∃ v rest, intScan (trim_in_place field) = some (v, rest) ∧
            (v < -9223372036854775808 ∨ 9223372036854775807 < v))) := by
  constructor
  · intro conv field v rest hscan
    have hhead : ¬ (trim_in_place field).headD 0 = 0 := by
      intro h0
      rw [intScan_head_zero _ h0] at hscan
      exact Option.noConfusion hscan
    constructor
    · intro hlo hhi
      simp only [extract_cell]
      rw [if_neg hhead]
      simp only [from_chars_int, hscan]
      rw [if_pos ⟨hlo, hhi⟩]
    · intro hlo hhi
      simp only [extract_cell]
      rw [if_neg hhead]
      simp only [from_chars_int, hscan]
      rw [if_pos ⟨hlo, hhi⟩]
  · intro conv field
    by_cases h0 : (trim_in_place field).headD 0 = 0
    · have hscan := intScan_head_zero _ h0
      simp only [extract_cell]
      rw [if_pos h0]
      constructor
      · intro _
        exact Or.inl hscan
      · intro _
        rfl
    · cases hscan : intScan (trim_in_place field) with
      | none =>
        simp only [extract_cell]
        rw [if_neg h0]
        simp [from_chars_int, hscan]
      | some p =>
        obtain ⟨v, rest⟩ := p
        by_cases hr : (-9223372036854775808 ≤ v ∧ v ≤ 9223372036854775807)
        · simp only [extract_cell]
          rw [if_neg h0]
          simp only [from_chars_int, hscan]
          rw [if_pos hr]
          constructor
          · intro hcontra
            exact Cell.noConfusion hcontra
          · rintro (hn | ⟨v2, r2, hs2, hout⟩)
            · exact Option.noConfusion hn
            · simp only [Option.some.injEq, Prod.mk.injEq] at hs2
              obtain ⟨hv2, hr2⟩ := hs2
              subst hv2
              omega
        · have hr2 : v < -9223372036854775808 ∨ 9223372036854775807 < v := by
            by_contra hc
            push_neg at hc
            exact hr ⟨by omega, by omega⟩
          simp only [extract_cell]
          rw [if_neg h0]
          simp only [from_chars_int, hscan]
          rw [if_neg hr]
          constructor
          · intro _
            exact Or.inr ⟨v, rest, rfl, hr2⟩
          · intro _
            rfl

/-- Witness for C9 (amended) at the concrete trimmed value "12X". -/
theorem numeric_prefix_value_extraction_witness :
    extract_cell id FieldClass.int32T [49, 50, 88] = Cell.i32 12 :=
  ((numeric_prefix_value_extraction.1 id [49, 50, 88] 12 [88] (by decide)).1
    (by decide) (by decide))

/-- Claim C1 counterexample: the Date cell "20230229" (bytes below), an
invalid calendar date in a non-leap year, does not extract to null: sscanf
matches the three numbers 2023, 2, 29 and mktime normalises the date to
2023-03-01, day 19417 since 1970-01-01, which is appended as a valid date
value. -/
theorem date_nonleap_feb29_not_null :
    extract_cell id FieldClass.date32T [50, 48, 50, 51, 48, 50, 50, 57] = Cell.date 19417 ∧
    extract_cell id FieldClass.date32T [50, 48, 50, 51, 48, 50, 50, 57] ≠ Cell.null := by
  exact ⟨by decide, by decide⟩

/-- Claim C1 (amended): a Date cell is parsed by scanning three integers of
at most 4, 2 and 2 characters from the trimmed bytes; failing to obtain
all three yields null, but neither the 8-character shape nor calendar
validity is checked: the scanned (y, m, d) is converted through mktime,
which normalises out-of-range components, so the non-leap "20230229"
yields the valid date 2023-03-01 (day 19417) rather than null, the
7-character "2024022" parses as 2024-02-02 (day 19755), and the leap day
"20240229" yields 2024-02-29, day 19782 since the 1970-01-01 epoch. -/
theorem date_parse_mktime_normalised :
    extract_cell id FieldClass.date32T [50, 48, 50, 52, 48, 50, 50, 57] = Cell.date 19782 ∧
    extract_cell id FieldClass.date32T [50, 48, 50, 51, 48, 50, 50, 57] = Cell.date 19417 ∧
    days_from_civil 2024 2 29 = 19782 ∧
    days_from_civil 2023 3 1 = 19417 ∧
    extract_cell id FieldClass.date32T [50, 48, 50, 52, 48, 50, 50] = Cell.date 19755 ∧
    (∀ (conv : List ℕ → List ℕ) (field : List ℕ),
      scan_date ((trim_in_place field).takeWhile (fun b => b != 0)) = none →
      extract_cell conv FieldClass.date32T field = Cell.null) := by
  refine ⟨by decide, by decide, by decide, by decide, by decide, ?_⟩
  intro conv field h
  by_cases h0 : (trim_in_place field).headD 0 = 0
  · simp only [extract_cell]
    rw [if_pos h0]
  · simp only [extract_cell]
    rw [if_neg h0]
    simp only [h]

/-- Witness for C1 (amended) at the concrete unparsable Date value "A". -/
theorem date_parse_mktime_normalised_witness :
    extract_cell id FieldClass.date32T [65] = Cell.null :=
  date_parse_mktime_normalised.2.2.2.2.2 id [65] (by decide)

/-- Claim C2 counterexample: extracting a two-byte field holding the bytes
A and space, from the three-byte buffer A, space, 99, leaves the buffer
changed to A, NUL, 99: the trailing space inside the field is overwritten
with NUL by trim_in_place, and only the byte one past the field is
restored. -/
theorem extraction_mutates_buffer :
    process_cell_buf [65, 32, 99] 0 2 = [65, 0, 99] ∧
    process_cell_buf [65, 32, 99] 0 2 ≠ [65, 32, 99] := by
  exact ⟨by decide, by decide⟩

/-- Claim C2 (amended): per-cell extraction restores the saved byte one
past the field and preserves every byte outside the field range, but it is
not fully reversed inside the field: after processing, every buffer byte
either equals its prior value, or it lies inside the field range, was a
whitespace byte (the first trailing-whitespace position after the trimmed
content), and now holds NUL. -/
theorem process_cell_effect :
    ∀ (buf : List ℕ) (off len i : ℕ), off + len < buf.length → i < buf.length →
      (process_cell_buf buf off len).getD i 0 = buf.getD i 0 ∨
      (off ≤ i ∧ i < off + len ∧ isspace_c (buf.getD i 0) = true ∧
        (process_cell_buf buf off len).getD i 0 = 0) := by
  intro buf off len i hfield hi
  have hfs : (field_slice buf off len).length = len := by
    simp only [field_slice, List.length_take, List.length_drop]
    omega
  have hpre_le : ((field_slice buf off len).takeWhile isspace_c).length +
      (trim_in_place (field_slice buf off len)).length ≤ len := by
    have h1 : ((field_slice buf off len).takeWhile isspace_c).length +
        ((field_slice buf off len).dropWhile isspace_c).length = len := by
      rw [← List.length_append, List.takeWhile_append_dropWhile, hfs]
    have h2 : (trim_in_place (field_slice buf off len)).length ≤
        ((field_slice buf off len).dropWhile isspace_c).length := by
      unfold trim_in_place
      rw [List.length_reverse]
      calc (((field_slice buf off len).dropWhile isspace_c).reverse.dropWhile isspace_c).length
          ≤ ((field_slice buf off len).dropWhile isspace_c).reverse.length :=
            length_dropWhile_le_aux _ _
        _ = ((field_slice buf off len).dropWhile isspace_c).length := List.length_reverse _
    omega
  have hple : trim_write_pos off (field_slice buf off len) ≤ off + len := by
    unfold trim_write_pos
    omega
  unfold process_cell_buf
  by_cases hlen0 : len = 0
  · subst hlen0
    rw [if_pos rfl]
    left
    by_cases hio : i = off + 0
    · subst hio
      simp only [Nat.add_zero]
      rw [getD_set_eq _ _ _ (by rw [List.length_set]; omega)]
    · rw [getD_set_ne _ _ _ _ (fun h => hio h.symm),
          getD_set_ne _ _ _ _ (fun h => hio h.symm)]
  · rw [if_neg hlen0]
    by_cases hin : i = off + len
    · left
      subst hin
      rw [getD_set_eq _ _ _ (by rw [List.length_set, List.length_set]; omega)]
    · rw [getD_set_ne _ _ _ _ (fun h => hin h.symm)]
      by_cases hip : i = trim_write_pos off (field_slice buf off len)
      · right
        have hplt : trim_write_pos off (field_slice buf off len) < off + len := by
          rcases Nat.lt_or_ge (trim_write_pos off (field_slice buf off len)) (off + len) with h | h
          · exact h
          · exact absurd (Nat.le_antisymm hple h) (fun he => hin (hip.trans he))
        have hoff_le : off ≤ i := by
          rw [hip]
          unfold trim_write_pos
          omega
        have hilt : i < off + len := by
          rw [hip]
          exact hplt
        have hk : ((field_slice buf off len).takeWhile isspace_c).length +
            (trim_in_place (field_slice buf off len)).length < len := by
          have := hplt
          unfold trim_write_pos at this
          omega
        have hkf : ((field_slice buf off len).takeWhile isspace_c).length +
            (trim_in_place (field_slice buf off len)).length < (field_slice buf off len).length := by
          rw [hfs]
          exact hk
        have hsp : isspace_c (buf.getD i 0) = true := by
          have hgap := trim_gap_isspace (field_slice buf off len) hkf
          rw [field_slice_getD buf off len _ hk] at hgap
          have hidx : i = off + (((field_slice buf off len).takeWhile isspace_c).length +
              (trim_in_place (field_slice buf off len)).length) := by
            rw [hip]
            unfold trim_write_pos
            omega
          rw [hidx]
          exact hgap
        refine ⟨hoff_le, hilt, hsp, ?_⟩
        rw [hip]
        rw [getD_set_eq _ _ _ (by rw [List.length_set]; omega)]
      · left
        rw [getD_set_ne _ _ _ _ (fun h => hip h.symm),
            getD_set_ne _ _ _ _ (fun h => hin h.symm)]

/-- Witness for C2 (amended) at the concrete buffer of the counterexample,
index 1 (the mutated trailing space inside the field). -/
theorem process_cell_effect_witness :
    (process_cell_buf [65, 32, 99] 0 2).getD 1 0 = ([65, 32, 99] : List ℕ).getD 1 0 ∨
    (0 ≤ 1 ∧ 1 < 0 + 2 ∧ isspace_c (([65, 32, 99] : List ℕ).getD 1 0) = true ∧
      (process_cell_buf [65, 32, 99] 0 2).getD 1 0 = 0) :=
  process_cell_effect [65, 32, 99] 0 2 1 (by decide) (by decide)
